import Mathlib

/-!
Course catalog (ProjectTwo.cpp): binary search tree and record parser.

A shallow embedding of `src/ProjectTwo.cpp`.

* A `std::string` is a `List Char`; every `Char` stands for one `char` of the
  string and is ordered by its unsigned code (`Char.toNat`), the order used by
  `std::string::compare`.
* A `Node*` is a value of `NodePtr`: `null` for `nullptr`, `node` for a pointer
  to an allocated `Node`.  A `Node*&` parameter becomes an argument and a
  returned value.
* A `std::istream` is the text still unread together with its `eofbit` and
  `failbit`.
* The `while (std::getline(...))` loops take a fuel argument and return `none`
  when it runs out; the callers pass a fuel that is proved to be enough.
-/

namespace ProjectTwo

/-- Contents of a `std::string`, one `Char` per `char`. -/
abbrev Str := List Char

/-- Sign of `a.compare(b)` for `std::string`: the first differing character
decides by its unsigned code, otherwise the shorter string is the smaller. The
C++ standard fixes only the sign of the result; the source only tests `< 0`. -/
def strCompare : Str → Str → Int
  | [], [] => 0
  | [], _ :: _ => -1
  | _ :: _, [] => 1
  | a :: as, b :: bs =>
    if a.toNat < b.toNat then -1
    else if b.toNat < a.toNat then 1
    else strCompare as bs

/-- The record `struct Course` (lines 12-17). -/
structure Course where
  courseNumber : Str
  title : Str
  prerequisites : List Str
deriving DecidableEq, Repr

/-- A `Node*` (lines 23-33): `null` is `nullptr`, `node c l r` points to a `Node`
holding `course = c`, `left = l`, `right = r`. -/
inductive NodePtr where
  | null : NodePtr
  | node (course : Course) (left right : NodePtr) : NodePtr
deriving DecidableEq, Repr

/-- The class `CourseCatalog` (lines 40-148): its only member is `root`. -/
structure CourseCatalog where
  root : NodePtr
deriving DecidableEq, Repr

/-- The constructor `CourseCatalog()` (line 105): `root(nullptr)`. -/
def CourseCatalog.empty : CourseCatalog := ⟨NodePtr.null⟩

/-- The method `insertNode(Node*& node, const Course& course)` (lines 49-62);
the result is the value of `node` after the call. -/
def CourseCatalog.insertNode : NodePtr → Course → NodePtr
  | NodePtr.null, course => NodePtr.node course NodePtr.null NodePtr.null
  | NodePtr.node c left right, course =>
    if strCompare course.courseNumber c.courseNumber < 0 then
      NodePtr.node c (CourseCatalog.insertNode left course) right
    else
      NodePtr.node c left (CourseCatalog.insertNode right course)

/-- The method `inOrder(Node* node)` (lines 68-80): the records whose line is
written to `std::cout`, in the order they are written. -/
def CourseCatalog.inOrder : NodePtr → List Course
  | NodePtr.null => []
  | NodePtr.node c left right =>
    CourseCatalog.inOrder left ++ c :: CourseCatalog.inOrder right

/-- The line `inOrder` writes for one record (line 75):
`courseNumber << ", " << title << std::endl`. -/
def courseLine (c : Course) : Str :=
  c.courseNumber ++ [',', ' '] ++ c.title ++ ['\n']

/-- The method `searchNode(Node* node, const std::string& courseNumber)`
(lines 88-101): `none` is `nullptr`, `some c` a pointer to the node holding `c`. -/
def CourseCatalog.searchNode : NodePtr → Str → Option Course
  | NodePtr.null, _ => none
  | NodePtr.node c left right, courseNumber =>
    if c.courseNumber = courseNumber then some c
    else if strCompare courseNumber c.courseNumber < 0 then
      CourseCatalog.searchNode left courseNumber
    else
      CourseCatalog.searchNode right courseNumber

/-- The method `Insert(const Course& course)` (lines 116-118). -/
def CourseCatalog.Insert (catalog : CourseCatalog) (course : Course) : CourseCatalog :=
  ⟨CourseCatalog.insertNode catalog.root course⟩

/-- The method `PrintAllCourses()` (lines 123-129): the text written to
`std::cout`, line by line. -/
def CourseCatalog.PrintAllCourses (catalog : CourseCatalog) : List Str :=
  match catalog.root with
  | NodePtr.null => ["The course catalog is empty.\n".toList]
  | root => (CourseCatalog.inOrder root).map courseLine

/-- The value `Course{ "NOT_FOUND", "", {} }` that `Search` returns for a key it
does not find (line 146). -/
def notFoundCourse : Course := ⟨"NOT_FOUND".toList, [], []⟩

/-- The method `Search(const std::string& courseNumber)` (lines 136-147). -/
def CourseCatalog.Search (catalog : CourseCatalog) (courseNumber : Str) : Course :=
  match CourseCatalog.searchNode catalog.root courseNumber with
  | some c => c
  | none => notFoundCourse

/-- The catalog after `Insert` has been called on every record of `cs`, first to
last. -/
def insertAll (catalog : CourseCatalog) (cs : List Course) : CourseCatalog :=
  cs.foldl CourseCatalog.Insert catalog

/-- State of a `std::istream` reading a text: the characters not yet read and
the `eofbit` and `failbit` flags (`badbit` is never set when reading a string or
a file that was opened and is readable). -/
structure IStream where
  buf : Str
  eofbit : Bool
  failbit : Bool
deriving DecidableEq, Repr

/-- A stream freshly constructed over `text`, as `std::stringstream ss(line)`
(line 169) or an `std::ifstream` that opened a file with this content. -/
def IStream.ofText (text : Str) : IStream := ⟨text, false, false⟩

/-- The extraction loop inside `std::getline`: the characters before the first
`delim`, the text left after that `delim`, and whether a `delim` was met (the
delimiter is extracted and dropped); without a `delim` all the text is taken. -/
def readUntil (delim : Char) : Str → Str × Str × Bool
  | [] => ([], [], false)
  | c :: cs =>
    if c = delim then ([], cs, true)
    else ((c :: (readUntil delim cs).1), (readUntil delim cs).2.1, (readUntil delim cs).2.2)

/-- The library call `std::getline(is, str, delim)`: the stream and `str` after
the call.  When the stream is not good the sentry fails: `failbit` is set and
`str` is left as it was.  Otherwise `str` is erased and characters are moved to
it up to a delimiter, or up to the end of the text, which sets `eofbit`, and
also `failbit` when no character at all was extracted. -/
def getline (is : IStream) (str : Str) (delim : Char) : IStream × Str :=
  if is.eofbit || is.failbit then (⟨is.buf, is.eofbit, true⟩, str)
  else if (readUntil delim is.buf).2.2 then
    (⟨(readUntil delim is.buf).2.1, false, false⟩, (readUntil delim is.buf).1)
  else
    (⟨[], true, (readUntil delim is.buf).1.isEmpty⟩, (readUntil delim is.buf).1)

/-- The trim of lines 185-187: `segment.erase(0, 1)` when `segment` is not empty
and starts with a space. -/
def trimSegment (segment : Str) : Str :=
  match segment with
  | [] => segment
  | c :: rest => if c = ' ' then rest else segment

/-- The loop `while (std::getline(ss, segment, ','))` of lines 183-191: the
value of `course.prerequisites` when the loop ends, `none` when `fuel`
iterations were not enough to reach the end. -/
def readPrerequisites : Nat → IStream → Str → List Str → Option (List Str)
  | 0, _, _, _ => none
  | fuel + 1, ss, segment, prerequisites =>
    let r := getline ss segment ','
    if r.1.failbit then some prerequisites
    else
      let segment1 := trimSegment r.2
      if segment1 ≠ [] then readPrerequisites fuel r.1 segment1 (prerequisites ++ [segment1])
      else readPrerequisites fuel r.1 segment1 prerequisites

/-- Outcome of the body of the loop over the lines (lines 169-191), up to the
call of `Insert`. -/
inductive LineOutcome where
  | outOfFuel : LineOutcome
  | skipped : LineOutcome
  | parsed (course : Course) : LineOutcome
deriving DecidableEq, Repr

/-- Lines 169-191 for one `line`: `skipped` when one of the two `continue`
statements is taken, `parsed course` with the `course` that line 194 inserts
otherwise. -/
def parseLine (line : Str) : LineOutcome :=
  let r1 := getline (IStream.ofText line) [] ','
  if r1.1.failbit then LineOutcome.skipped
  else
    let courseNumber := r1.2
    let r2 := getline r1.1 r1.2 ','
    if r2.1.failbit then LineOutcome.skipped
    else
      let title := r2.2
      match readPrerequisites (r2.1.buf.length + 2) r2.1 r2.2 [] with
      | none => LineOutcome.outOfFuel
      | some prerequisites => LineOutcome.parsed ⟨courseNumber, title, prerequisites⟩

/-- The body of the loop over the lines (lines 169-194) for one `line`: the
catalog after it, `none` when the inner loop ran out of fuel. -/
def loadLine (catalog : CourseCatalog) (line : Str) : Option CourseCatalog :=
  match parseLine line with
  | LineOutcome.outOfFuel => none
  | LineOutcome.skipped => some catalog
  | LineOutcome.parsed course => some (catalog.Insert course)

/-- The loop `while (std::getline(file, line))` of lines 168-195: the catalog
when the loop ends, `none` when the fuel was not enough. -/
def loadLoop : Nat → IStream → Str → CourseCatalog → Option CourseCatalog
  | 0, _, _, _ => none
  | fuel + 1, file, line, catalog =>
    let r := getline file line '\n'
    if r.1.failbit then some catalog
    else
      match loadLine catalog r.2 with
      | none => none
      | some catalog1 => loadLoop fuel r.1 r.2 catalog1

/-- The function `loadDataStructure(catalog, filename)` (lines 156-198): the
catalog after the call.  `file` is the content of the file named `filename`,
`none` when it cannot be opened (`!file.is_open()`, lines 161-164).  The
messages written to `std::cerr` and `std::cout` are left out. -/
def loadDataStructure (catalog : CourseCatalog) (file : Option Str) : Option CourseCatalog :=
  match file with
  | none => some catalog
  | some text => loadLoop (text.length + 2) (IStream.ofText text) [] catalog

/-! Definitions used to state the properties; they are not part of the source. -/

/-- Auxiliary, for statements: the test "`a` comes no later than `b` by course
number", that is `a.courseNumber.compare(b.courseNumber) <= 0`. -/
def keyLE (a b : Course) : Bool :=
  decide (strCompare a.courseNumber b.courseNumber ≤ 0)

/-- Auxiliary, for statements: the test "the course number of `c` is `k`". -/
def hasKey (k : Str) (c : Course) : Bool :=
  decide (c.courseNumber = k)

/-- Auxiliary, for proofs: insertion of `c` into a listing, just before the first
record whose course number is greater than that of `c` (so after every record
with the same number). -/
def insertSorted (c : Course) : List Course → List Course
  | [] => [c]
  | x :: xs =>
    if strCompare c.courseNumber x.courseNumber < 0 then c :: x :: xs
    else x :: insertSorted c xs

/-- Auxiliary, for statements: the Course that lines 169-191 produce for `line`,
`none` when they produce none. -/
def parsedCourse (line : Str) : Option Course :=
  match parseLine line with
  | LineOutcome.parsed course => some course
  | _ => none

/-- The trim of a prerequisite field in the words of the specification: exactly
one leading space is removed when the field starts with a space, nothing else. -/
def specStripSpace (field : Str) : Str :=
  if field.head? = some ' ' then field.tail else field

/-- The prerequisites of a line in the words of the specification: its
comma-separated fields from the third on, in order, each trimmed by
`specStripSpace`, the fields that are empty after the trim dropped. -/
def specPrerequisites (line : Str) : List Str :=
  (((line.splitOn ',').drop 2).map specStripSpace).filter (fun field => decide (field ≠ []))

/-- Auxiliary, for statements: the text of a file whose lines are `lines`, each
followed by a newline; with `terminated = false` the last line has none. -/
def fileText : List Str → Bool → Str
  | [], _ => []
  | [line], false => line
  | line :: rest, terminated => line ++ '\n' :: fileText rest terminated

/-- Auxiliary, for statements: the search-tree invariant.  At every node the
key is strictly greater than every key of the left subtree and less than or
equal to every key of the right subtree. -/
def isSearchTree : NodePtr → Bool
  | NodePtr.null => true
  | NodePtr.node c left right =>
    (CourseCatalog.inOrder left).all
        (fun x => decide (0 < strCompare c.courseNumber x.courseNumber))
      && (CourseCatalog.inOrder right).all
        (fun x => decide (strCompare c.courseNumber x.courseNumber ≤ 0))
      && isSearchTree left && isSearchTree right

/-- Auxiliary, for statements: no node of the tree has a left child. -/
def hasNoLeftChild : NodePtr → Bool
  | NodePtr.null => true
  | NodePtr.node _ NodePtr.null right => hasNoLeftChild right
  | NodePtr.node _ (NodePtr.node _ _ _) _ => false

/-- Auxiliary, for statements: the number of nodes on the longest path from the
root down (0 for `nullptr`). -/
def height : NodePtr → Nat
  | NodePtr.null => 0
  | NodePtr.node _ left right => 1 + max (height left) (height right)

/-- Auxiliary, for statements: the tree in which every record of the list is
the right child of the record before it. -/
def rightSpine : List Course → NodePtr
  | [] => NodePtr.null
  | c :: cs => NodePtr.node c NodePtr.null (rightSpine cs)

/-! The order of `std::string::compare`. -/

theorem strCompare_self (a : Str) : strCompare a a = 0 := by
  induction a with
  | nil => rfl
  | cons x xs ih => simp [strCompare, ih]

theorem strCompare_lt_iff_gt (a b : Str) : strCompare a b < 0 ↔ 0 < strCompare b a := by
  induction a generalizing b with
  | nil => cases b <;> simp [strCompare]
  | cons x xs ih =>
    cases b with
    | nil => simp [strCompare]
    | cons y ys =>
      simp only [strCompare]
      split_ifs <;> first | omega | simp | exact ih ys

theorem strCompare_le_trans (a b c : Str) (h1 : strCompare a b ≤ 0) (h2 : strCompare b c ≤ 0) :
    strCompare a c ≤ 0 := by
  induction a generalizing b c with
  | nil => cases c <;> simp [strCompare]
  | cons x xs ih =>
    cases b with
    | nil => simp [strCompare] at h1
    | cons y ys =>
      cases c with
      | nil => simp [strCompare] at h2
      | cons z zs =>
        simp only [strCompare] at h1 h2 ⊢
        split_ifs at h1 h2 ⊢ <;> first | omega | exact ih ys zs h1 h2

theorem strCompare_total (a b : Str) : strCompare a b ≤ 0 ∨ strCompare b a ≤ 0 := by
  induction a generalizing b with
  | nil => cases b <;> simp [strCompare]
  | cons x xs ih =>
    cases b with
    | nil => simp [strCompare]
    | cons y ys =>
      simp only [strCompare]
      split_ifs <;> first | omega | simp | exact ih ys

theorem strCompare_eq_zero (a b : Str) (h : strCompare a b = 0) : a = b := by
  induction a generalizing b with
  | nil => cases b <;> simp [strCompare] at h ⊢
  | cons x xs ih =>
    cases b with
    | nil => simp [strCompare] at h
    | cons y ys =>
      simp only [strCompare] at h
      by_cases h1 : x.toNat < y.toNat
      · simp [h1] at h
      · by_cases h2 : y.toNat < x.toNat
        · simp [h1, h2] at h
        · simp only [h1, h2, if_false] at h
          have e : x.toNat = y.toNat := by omega
          have : x = y := by
            have := congrArg Char.ofNat e
            simpa using this
          rw [this, ih ys h]

theorem strCompare_ge_of_not_lt (a b : Str) (h : ¬ strCompare a b < 0) : strCompare b a ≤ 0 := by
  rcases strCompare_total a b with h1 | h1
  · have h0 : strCompare a b = 0 := by omega
    rw [strCompare_eq_zero a b h0, strCompare_self]
  · exact h1

theorem strCompare_not_lt_of_ge (a b : Str) (h : strCompare b a ≤ 0) : ¬ strCompare a b < 0 := by
  intro h1
  have := (strCompare_lt_iff_gt a b).1 h1
  omega

theorem strCompare_lt_of_lt_of_le (a b c : Str) (h1 : strCompare a b < 0)
    (h2 : strCompare b c ≤ 0) : strCompare a c < 0 := by
  have h3 : strCompare a c ≤ 0 := strCompare_le_trans a b c (by omega) h2
  by_contra h4
  have h0 : strCompare a c = 0 := by omega
  have e := strCompare_eq_zero a c h0
  subst e
  exact strCompare_not_lt_of_ge a b h2 h1

theorem strCompare_ne_of_lt (a b : Str) (h : strCompare a b < 0) : a ≠ b := by
  intro e
  subst e
  rw [strCompare_self] at h
  omega

theorem mem_insertSorted (c e : Course) (l : List Course) :
    e ∈ insertSorted c l ↔ e = c ∨ e ∈ l := by
  induction l with
  | nil => simp [insertSorted]
  | cons x xs ih =>
    simp only [insertSorted]
    split_ifs
    · simp
    · simp only [List.mem_cons, ih]
      tauto

theorem insertSorted_perm (c : Course) (l : List Course) :
    List.Perm (insertSorted c l) (c :: l) := by
  induction l with
  | nil => simp [insertSorted]
  | cons x xs ih =>
    simp only [insertSorted]
    split_ifs
    · exact List.Perm.refl _
    · exact (List.Perm.cons x ih).trans (List.Perm.swap c x xs)

theorem insertSorted_append_lt (c x : Course) (L R : List Course)
    (h : strCompare c.courseNumber x.courseNumber < 0) :
    insertSorted c (L ++ x :: R) = insertSorted c L ++ x :: R := by
  induction L with
  | nil => simp [insertSorted, h]
  | cons y ys ih =>
    rw [List.cons_append, insertSorted, insertSorted]
    split_ifs
    · rfl
    · rw [ih]; rfl

theorem insertSorted_append_ge (c : Course) (L R : List Course)
    (h : ∀ e ∈ L, ¬ strCompare c.courseNumber e.courseNumber < 0) :
    insertSorted c (L ++ R) = L ++ insertSorted c R := by
  induction L with
  | nil => rfl
  | cons y ys ih =>
    have hy := h y (List.mem_cons_self _ _)
    rw [List.cons_append, insertSorted, if_neg hy,
      ih (fun e he => h e (List.mem_cons_of_mem _ he))]
    rfl

theorem insertSorted_sorted (c : Course) (l : List Course)
    (hs : List.Pairwise (fun a b => strCompare a.courseNumber b.courseNumber ≤ 0) l) :
    List.Pairwise (fun a b => strCompare a.courseNumber b.courseNumber ≤ 0)
      (insertSorted c l) := by
  induction l with
  | nil => simp [insertSorted]
  | cons x xs ih =>
    rw [List.pairwise_cons] at hs
    simp only [insertSorted]
    split_ifs with h
    · rw [List.pairwise_cons]
      refine ⟨?_, List.pairwise_cons.2 hs⟩
      intro e he
      rcases List.mem_cons.1 he with rfl | he
      · omega
      · exact strCompare_le_trans _ _ _ (by omega) (hs.1 e he)
    · rw [List.pairwise_cons]
      refine ⟨?_, ih hs.2⟩
      intro e he
      rcases (mem_insertSorted c e xs).1 he with rfl | he
      · exact strCompare_ge_of_not_lt _ _ h
      · exact hs.1 e he

theorem filter_insertSorted (c : Course) (l : List Course) (k : Str)
    (hs : List.Pairwise (fun a b => strCompare a.courseNumber b.courseNumber ≤ 0) l) :
    (insertSorted c l).filter (hasKey k) = l.filter (hasKey k) ++ [c].filter (hasKey k) := by
  induction l with
  | nil => simp [insertSorted]
  | cons x xs ih =>
    rw [List.pairwise_cons] at hs
    simp only [insertSorted]
    split_ifs with h
    · by_cases hk : c.courseNumber = k
      · have hnone : (x :: xs).filter (hasKey k) = [] := by
          rw [List.filter_eq_nil_iff]
          intro e he
          have hlt : strCompare c.courseNumber e.courseNumber < 0 := by
            rcases List.mem_cons.1 he with rfl | he
            · exact h
            · exact strCompare_lt_of_lt_of_le _ _ _ h (hs.1 e he)
          have := strCompare_ne_of_lt _ _ hlt
          simp only [hasKey, decide_eq_true_eq]
          intro e2
          exact this (hk.trans e2.symm)
        rw [List.filter_cons, hnone]
        simp [hasKey, hk]
      · have : hasKey k c = false := by simp [hasKey, hk]
        simp [List.filter_cons, this]
    · rw [List.filter_cons, ih hs.2]
      by_cases hx : hasKey k x = true
      · simp [List.filter_cons, hx]
      · simp [List.filter_cons, hx]

theorem inOrder_insertNode (t : NodePtr) (c : Course)
    (hs : List.Pairwise (fun a b => strCompare a.courseNumber b.courseNumber ≤ 0)
      (CourseCatalog.inOrder t)) :
    CourseCatalog.inOrder (CourseCatalog.insertNode t c)
      = insertSorted c (CourseCatalog.inOrder t) := by
  induction t with
  | null => rfl
  | node x l r ihl ihr =>
    simp only [CourseCatalog.inOrder] at hs
    rw [List.pairwise_append, List.pairwise_cons] at hs
    obtain ⟨hl, ⟨hxr, hr⟩, hlr⟩ := hs
    simp only [CourseCatalog.insertNode]
    split_ifs with h
    · simp only [CourseCatalog.inOrder]
      rw [ihl hl, insertSorted_append_lt c x _ _ h]
    · simp only [CourseCatalog.inOrder]
      rw [ihr hr, insertSorted_append_ge c _ _ ?_]
      · simp [insertSorted, h]
      · intro e he hlt
        have hex := hlr e he x (List.mem_cons_self _ _)
        exact h (strCompare_lt_of_lt_of_le _ _ _ hlt hex)

theorem insertAll_append (catalog : CourseCatalog) (cs : List Course) (c : Course) :
    insertAll catalog (cs ++ [c]) = (insertAll catalog cs).Insert c := by
  simp [insertAll, List.foldl_append]

theorem inOrder_insertAll (cs : List Course) :
    List.Pairwise (fun a b => strCompare a.courseNumber b.courseNumber ≤ 0)
        (CourseCatalog.inOrder (insertAll CourseCatalog.empty cs).root)
      ∧ List.Perm (CourseCatalog.inOrder (insertAll CourseCatalog.empty cs).root) cs
      ∧ ∀ k, (CourseCatalog.inOrder (insertAll CourseCatalog.empty cs).root).filter (hasKey k)
          = cs.filter (hasKey k) := by
  induction cs using List.reverseRecOn with
  | nil => simp [insertAll, CourseCatalog.empty, CourseCatalog.inOrder]
  | append_singleton cs c ih =>
    obtain ⟨hs, hp, hf⟩ := ih
    rw [insertAll_append]
    simp only [CourseCatalog.Insert]
    rw [inOrder_insertNode _ _ hs]
    refine ⟨insertSorted_sorted c _ hs, ?_, ?_⟩
    · refine (insertSorted_perm c _).trans ?_
      refine (List.Perm.cons c hp).trans ?_
      exact (List.perm_append_singleton c cs).symm
    · intro k
      rw [filter_insertSorted c _ k hs, hf k, List.filter_append]

theorem keyLE_trans (a b c : Course) (h1 : keyLE a b = true) (h2 : keyLE b c = true) :
    keyLE a c = true := by
  simp only [keyLE, decide_eq_true_eq] at *
  exact strCompare_le_trans _ _ _ h1 h2

theorem keyLE_total (a b : Course) : (keyLE a b || keyLE b a) = true := by
  simp only [keyLE, Bool.or_eq_true, decide_eq_true_eq]
  exact strCompare_total _ _

theorem sorted_stable_unique (l1 l2 : List Course)
    (h1 : List.Pairwise (fun a b => strCompare a.courseNumber b.courseNumber ≤ 0) l1)
    (h2 : List.Pairwise (fun a b => strCompare a.courseNumber b.courseNumber ≤ 0) l2)
    (hf : ∀ k, l1.filter (hasKey k) = l2.filter (hasKey k)) : l1 = l2 := by
  induction l1 generalizing l2 with
  | nil =>
    cases l2 with
    | nil => rfl
    | cons b l2 =>
      have := hf b.courseNumber
      simp [hasKey] at this
  | cons a l1 ih =>
    cases l2 with
    | nil =>
      have := hf a.courseNumber
      simp [hasKey] at this
    | cons b l2 =>
      rw [List.pairwise_cons] at h1 h2
      have hab : strCompare a.courseNumber b.courseNumber ≤ 0 := by
        have hm : b ∈ (a :: l1).filter (hasKey b.courseNumber) := by
          rw [hf b.courseNumber]
          simp [hasKey]
        rcases List.mem_cons.1 (List.mem_filter.1 hm).1 with e | hm
        · rw [e, strCompare_self]
        · exact h1.1 b hm
      have hba : strCompare b.courseNumber a.courseNumber ≤ 0 := by
        have hm : a ∈ (b :: l2).filter (hasKey a.courseNumber) := by
          rw [← hf a.courseNumber]
          simp [hasKey]
        rcases List.mem_cons.1 (List.mem_filter.1 hm).1 with e | hm
        · rw [e, strCompare_self]
        · exact h2.1 a hm
      have hkey : a.courseNumber = b.courseNumber := by
        apply strCompare_eq_zero
        have := strCompare_not_lt_of_ge _ _ hba
        omega
      have hhead := hf a.courseNumber
      have hb : hasKey a.courseNumber b = true := by simp [hasKey, hkey]
      have ha : hasKey a.courseNumber a = true := by simp [hasKey]
      rw [List.filter_cons_of_pos ha, List.filter_cons_of_pos hb] at hhead
      have hE : a = b := (List.cons.inj hhead).1
      subst hE
      congr 1
      apply ih l2 h1.2 h2.2
      intro k
      have := hf k
      by_cases hk : hasKey k a = true
      · rw [List.filter_cons_of_pos hk, List.filter_cons_of_pos hk] at this
        exact (List.cons.inj this).2
      · rw [List.filter_cons_of_neg hk, List.filter_cons_of_neg hk] at this
        exact this

theorem filter_mergeSort (cs : List Course) (k : Str) :
    (cs.mergeSort keyLE).filter (hasKey k) = cs.filter (hasKey k) := by
  have hsub : List.Sublist (cs.filter (hasKey k)) (cs.mergeSort keyLE) := by
    apply List.sublist_mergeSort keyLE_trans keyLE_total
    · apply List.pairwise_of_forall_mem_list
      intro a ha b hb
      have ha2 := (List.mem_filter.1 ha).2
      have hb2 := (List.mem_filter.1 hb).2
      simp only [hasKey, decide_eq_true_eq] at ha2 hb2
      simp [keyLE, ha2, hb2, strCompare_self]
    · exact List.filter_sublist cs
  have hsub2 := hsub.filter (hasKey k)
  rw [List.filter_filter] at hsub2
  simp only [Bool.and_self] at hsub2
  have hlen : ((cs.mergeSort keyLE).filter (hasKey k)).length = (cs.filter (hasKey k)).length :=
    ((List.mergeSort_perm cs keyLE).filter (hasKey k)).length_eq
  exact (hsub2.eq_of_length hlen.symm).symm

theorem inOrder_eq_mergeSort (cs : List Course) :
    CourseCatalog.inOrder (insertAll CourseCatalog.empty cs).root = cs.mergeSort keyLE := by
  obtain ⟨hs, _, hf⟩ := inOrder_insertAll cs
  apply sorted_stable_unique _ _ hs
  · have := List.sorted_mergeSort keyLE_trans keyLE_total cs
    exact this.imp (fun h => by simpa [keyLE] using h)
  · intro k
    rw [hf k, filter_mergeSort]

theorem searchNode_insertNode (t : NodePtr) (c : Course) (k : Str) :
    CourseCatalog.searchNode (CourseCatalog.insertNode t c) k
      = if (CourseCatalog.searchNode t k).isSome then CourseCatalog.searchNode t k
        else if c.courseNumber = k then some c else none := by
  induction t with
  | null =>
    simp only [CourseCatalog.insertNode, CourseCatalog.searchNode]
    by_cases hk : c.courseNumber = k <;> simp [hk]
  | node x l r ihl ihr =>
    simp only [CourseCatalog.insertNode]
    by_cases h : strCompare c.courseNumber x.courseNumber < 0
    · simp only [h, if_true, CourseCatalog.searchNode]
      by_cases hx : x.courseNumber = k
      · simp [hx]
      · simp only [hx, if_false]
        by_cases hk : strCompare k x.courseNumber < 0
        · simp only [hk, if_true]
          exact ihl
        · simp only [hk, if_false]
          have hne : c.courseNumber ≠ k := fun e => hk (e ▸ h)
          simp only [hne, if_false]
          cases CourseCatalog.searchNode r k <;> simp
    · simp only [h, if_false, CourseCatalog.searchNode]
      by_cases hx : x.courseNumber = k
      · simp [hx]
      · simp only [hx, if_false]
        by_cases hk : strCompare k x.courseNumber < 0
        · simp only [hk, if_true]
          have hne : c.courseNumber ≠ k := fun e => h (e ▸ hk)
          simp only [hne, if_false]
          cases CourseCatalog.searchNode l k <;> simp
        · simp only [hk, if_false]
          exact ihr

theorem root_insertAll (catalog : CourseCatalog) (cs : List Course) :
    (insertAll catalog cs).root = cs.foldl CourseCatalog.insertNode catalog.root := by
  induction cs generalizing catalog with
  | nil => rfl
  | cons c cs ih =>
    simp only [insertAll, List.foldl_cons] at ih ⊢
    rw [ih]
    rfl

theorem searchNode_foldl (t : NodePtr) (cs : List Course) (k : Str) :
    CourseCatalog.searchNode (cs.foldl CourseCatalog.insertNode t) k
      = if (CourseCatalog.searchNode t k).isSome then CourseCatalog.searchNode t k
        else cs.find? (hasKey k) := by
  induction cs generalizing t with
  | nil => cases h : CourseCatalog.searchNode t k <;> simp [h]
  | cons c cs ih =>
    rw [List.foldl_cons, ih, searchNode_insertNode]
    cases h : CourseCatalog.searchNode t k with
    | some x => simp
    | none =>
      by_cases hk : c.courseNumber = k
      · simp [hk, hasKey]
      · simp [hk, hasKey]

theorem searchNode_insertAll (cs : List Course) (k : Str) :
    CourseCatalog.searchNode (insertAll CourseCatalog.empty cs).root k = cs.find? (hasKey k) := by
  rw [root_insertAll, searchNode_foldl]
  simp [CourseCatalog.empty, CourseCatalog.searchNode]

theorem Search_insertAll (cs : List Course) (k : Str) :
    (insertAll CourseCatalog.empty cs).Search k = (cs.find? (hasKey k)).getD notFoundCourse := by
  simp only [CourseCatalog.Search, searchNode_insertAll]
  cases cs.find? (hasKey k) <;> rfl

/-- C1: for every sequence of Courses inserted into an empty catalog, the records
listed by the in-order traversal are non-decreasing by `courseNumber` in the
order of `std::string::compare`: every record comes before only records whose
course number is not smaller. -/
theorem inOrder_nondecreasing (cs : List Course) :
    List.Pairwise (fun a b => strCompare a.courseNumber b.courseNumber ≤ 0)
      (CourseCatalog.inOrder (insertAll CourseCatalog.empty cs).root) :=
  (inOrder_insertAll cs).1

/-- C2: when the key `k` is the course number of at least one inserted Course,
`Search k` returns the first Course in insertion order whose course number is
`k`, with the same number, title and prerequisites. -/
theorem Search_returns_first (cs : List Course) (k : Str)
    (h : ∃ c ∈ cs, c.courseNumber = k) :
    ∃ pre c post, cs = pre ++ c :: post ∧ (∀ d ∈ pre, d.courseNumber ≠ k)
      ∧ c.courseNumber = k
      ∧ (insertAll CourseCatalog.empty cs).Search k = c
      ∧ ((insertAll CourseCatalog.empty cs).Search k).courseNumber = c.courseNumber
      ∧ ((insertAll CourseCatalog.empty cs).Search k).title = c.title
      ∧ ((insertAll CourseCatalog.empty cs).Search k).prerequisites = c.prerequisites := by
  have hsome : (cs.find? (hasKey k)).isSome := by
    rw [List.find?_isSome]
    obtain ⟨c, hc, hk⟩ := h
    exact ⟨c, hc, by simp [hasKey, hk]⟩
  obtain ⟨c, hc⟩ := Option.isSome_iff_exists.1 hsome
  obtain ⟨hkc, pre, post, hcs, hpre⟩ := List.find?_eq_some.1 hc
  have hS : (insertAll CourseCatalog.empty cs).Search k = c := by
    rw [Search_insertAll, hc]
    rfl
  refine ⟨pre, c, post, hcs, ?_, ?_, hS, by rw [hS], by rw [hS], by rw [hS]⟩
  · intro d hd
    have := hpre d hd
    simpa [hasKey] using this
  · simpa [hasKey] using hkc

/-- Witness of C2: key "B100" inserted twice with different titles. -/
theorem Search_returns_first_witness :
    (∃ c ∈ [(⟨"B100".toList, "First".toList, []⟩ : Course),
        ⟨"B100".toList, "Second".toList, ["A1".toList]⟩], c.courseNumber = "B100".toList)
    ∧ ∃ pre c post,
      [(⟨"B100".toList, "First".toList, []⟩ : Course),
        ⟨"B100".toList, "Second".toList, ["A1".toList]⟩] = pre ++ c :: post
      ∧ (∀ d ∈ pre, d.courseNumber ≠ "B100".toList)
      ∧ c.courseNumber = "B100".toList
      ∧ (insertAll CourseCatalog.empty [(⟨"B100".toList, "First".toList, []⟩ : Course),
          ⟨"B100".toList, "Second".toList, ["A1".toList]⟩]).Search "B100".toList = c
      ∧ ((insertAll CourseCatalog.empty [(⟨"B100".toList, "First".toList, []⟩ : Course),
          ⟨"B100".toList, "Second".toList, ["A1".toList]⟩]).Search "B100".toList).courseNumber
          = c.courseNumber
      ∧ ((insertAll CourseCatalog.empty [(⟨"B100".toList, "First".toList, []⟩ : Course),
          ⟨"B100".toList, "Second".toList, ["A1".toList]⟩]).Search "B100".toList).title
          = c.title
      ∧ ((insertAll CourseCatalog.empty [(⟨"B100".toList, "First".toList, []⟩ : Course),
          ⟨"B100".toList, "Second".toList, ["A1".toList]⟩]).Search "B100".toList).prerequisites
          = c.prerequisites :=
  ⟨⟨_, List.mem_cons_self _ _, rfl⟩,
    Search_returns_first _ _ ⟨_, List.mem_cons_self _ _, rfl⟩⟩

/-- C3: when the key `k` differs from the course number of every inserted Course
(also when nothing was inserted), `searchNode` returns null and `Search k`
returns the record with course number "NOT_FOUND", empty title and no
prerequisites. -/
theorem Search_absent (cs : List Course) (k : Str)
    (h : ∀ c ∈ cs, c.courseNumber ≠ k) :
    CourseCatalog.searchNode (insertAll CourseCatalog.empty cs).root k = none
      ∧ (insertAll CourseCatalog.empty cs).Search k = ⟨"NOT_FOUND".toList, [], []⟩ := by
  have hnone : cs.find? (hasKey k) = none := by
    rw [List.find?_eq_none]
    intro c hc
    simpa [hasKey] using h c hc
  refine ⟨by rw [searchNode_insertAll, hnone], ?_⟩
  rw [Search_insertAll, hnone]
  rfl

/-- Witness of C3: only ("CS101", "Intro") inserted, "CS102" looked up. -/
theorem Search_absent_witness :
    (∀ c ∈ [(⟨"CS101".toList, "Intro".toList, []⟩ : Course)], c.courseNumber ≠ "CS102".toList)
    ∧ CourseCatalog.searchNode
        (insertAll CourseCatalog.empty [(⟨"CS101".toList, "Intro".toList, []⟩ : Course)]).root
        "CS102".toList = none
    ∧ (insertAll CourseCatalog.empty [(⟨"CS101".toList, "Intro".toList, []⟩ : Course)]).Search
        "CS102".toList = ⟨"NOT_FOUND".toList, [], []⟩ :=
  ⟨by decide, Search_absent _ _ (by decide)⟩

theorem readUntil_no_delim (d : Char) (buf : Str) (h : d ∉ buf) :
    readUntil d buf = (buf, [], false) := by
  induction buf with
  | nil => rfl
  | cons c cs ih =>
    have hc : ¬ c = d := fun e => h (e ▸ List.mem_cons_self _ _)
    have hcs : d ∉ cs := fun e => h (List.mem_cons_of_mem _ e)
    simp [readUntil, hc, ih hcs]

theorem readUntil_delim (d : Char) (a b : Str) (h : d ∉ a) :
    readUntil d (a ++ d :: b) = (a, b, true) := by
  induction a with
  | nil => simp [readUntil]
  | cons c cs ih =>
    have hc : ¬ c = d := fun e => h (e ▸ List.mem_cons_self _ _)
    have hcs : d ∉ cs := fun e => h (List.mem_cons_of_mem _ e)
    simp [readUntil, hc, ih hcs]

theorem split_at_first (d : Char) (buf : Str) (h : d ∈ buf) :
    ∃ a b, buf = a ++ d :: b ∧ d ∉ a := by
  induction buf with
  | nil => simp at h
  | cons c cs ih =>
    by_cases hc : c = d
    · exact ⟨[], cs, by simp [hc], by simp⟩
    · have hcs : d ∈ cs := by
        rcases List.mem_cons.1 h with e | e
        · exact absurd e.symm hc
        · exact e
      obtain ⟨a, b, hab, hna⟩ := ih hcs
      refine ⟨c :: a, b, by simp [hab], ?_⟩
      intro hm
      rcases List.mem_cons.1 hm with e | e
      · exact hc e.symm
      · exact hna e

theorem getline_not_good (is : IStream) (str : Str) (d : Char)
    (h : (is.eofbit || is.failbit) = true) :
    getline is str d = (⟨is.buf, is.eofbit, true⟩, str) := by
  simp only [getline, h, if_true]

theorem getline_no_delim (d : Char) (buf str : Str) (h : d ∉ buf) :
    getline ⟨buf, false, false⟩ str d = (⟨[], true, buf.isEmpty⟩, buf) := by
  simp [getline, readUntil_no_delim d buf h]

theorem getline_delim (d : Char) (a b str : Str) (h : d ∉ a) :
    getline ⟨a ++ d :: b, false, false⟩ str d = (⟨b, false, false⟩, a) := by
  simp [getline, readUntil_delim d a b h]

theorem trimSegment_eq_spec (segment : Str) : trimSegment segment = specStripSpace segment := by
  cases segment with
  | nil => rfl
  | cons c rest =>
    by_cases hc : c = ' '
    · simp [trimSegment, specStripSpace, hc]
    · simp [trimSegment, specStripSpace, hc]

theorem readPrerequisites_not_good (fuel : Nat) (ss : IStream) (segment : Str)
    (prerequisites : List Str) (h : (ss.eofbit || ss.failbit) = true) :
    readPrerequisites (fuel + 1) ss segment prerequisites = some prerequisites := by
  simp [readPrerequisites, getline_not_good ss segment ',' h]

theorem readPrerequisites_spec (fuel : Nat) (buf segment : Str) (prerequisites : List Str)
    (hfuel : buf.length + 2 ≤ fuel) :
    readPrerequisites fuel ⟨buf, false, false⟩ segment prerequisites
      = some (prerequisites
          ++ ((buf.splitOn ',').map specStripSpace).filter (fun field => decide (field ≠ []))) := by
  induction fuel generalizing buf segment prerequisites with
  | zero => omega
  | succ n ih =>
    by_cases hmem : ',' ∈ buf
    · obtain ⟨a, b, hab, hna⟩ := split_at_first ',' buf hmem
      subst hab
      have hlen : b.length + 2 ≤ n := by
        simp only [List.length_append, List.length_cons] at hfuel
        omega
      have hsplit : (a ++ ',' :: b).splitOn ',' = a :: b.splitOn ',' := by
        apply List.splitOnP_first
        · intro x hx hxe
          simp only [beq_iff_eq] at hxe
          exact hna (hxe ▸ hx)
        · simp
      simp only [readPrerequisites, getline_delim ',' a b segment hna]
      rw [hsplit, List.map_cons, List.filter_cons, trimSegment_eq_spec]
      by_cases hne : specStripSpace a = []
      · simp [hne, ih b _ prerequisites hlen]
      · simp [hne, ih b _ _ hlen]
    · have hsplit : buf.splitOn ',' = [buf] := by
        apply List.splitOnP_eq_single
        intro x hx hxe
        simp only [beq_iff_eq] at hxe
        exact hmem (hxe ▸ hx)
      simp only [readPrerequisites, getline_no_delim ',' buf segment hmem]
      rw [hsplit, trimSegment_eq_spec]
      cases n with
      | zero => omega
      | succ m =>
        cases buf with
        | nil => simp [specStripSpace]
        | cons c cs =>
          by_cases hne : specStripSpace (c :: cs) = []
          · simp [hne, readPrerequisites_not_good]
          · simp [hne, readPrerequisites_not_good]

theorem parseLine_no_comma (line : Str) (h : ',' ∉ line) : parseLine line = LineOutcome.skipped := by
  simp only [parseLine, IStream.ofText, getline_no_delim ',' line [] h]
  cases line with
  | nil => simp
  | cons c cs => simp [getline_not_good]

theorem parseLine_trailing_comma (num : Str) (h : ',' ∉ num) :
    parseLine (num ++ [',']) = LineOutcome.skipped := by
  simp [parseLine, IStream.ofText, getline_delim ',' num [] [] h,
    getline_no_delim ',' [] num (List.not_mem_nil _)]

theorem splitOn_first (a b : Str) (h : ',' ∉ a) :
    (a ++ ',' :: b).splitOn ',' = a :: b.splitOn ',' := by
  apply List.splitOnP_first
  · intro x hx hxe
    simp only [beq_iff_eq] at hxe
    exact h (hxe ▸ hx)
  · simp

theorem parseLine_fields (num rest : Str) (h : ',' ∉ num) (hrest : rest ≠ []) :
    parseLine (num ++ ',' :: rest)
      = LineOutcome.parsed ⟨num, rest.takeWhile (fun ch => decide (ch ≠ ',')),
          specPrerequisites (num ++ ',' :: rest)⟩ := by
  by_cases hmem : ',' ∈ rest
  · obtain ⟨t, b, htb, hnt⟩ := split_at_first ',' rest hmem
    subst htb
    have htake : (t ++ ',' :: b).takeWhile (fun ch => decide (ch ≠ ',')) = t := by
      rw [List.takeWhile_append_of_pos]
      · simp
      · intro x hx
        simp only [decide_eq_true_eq]
        exact fun e => hnt (e ▸ hx)
    simp only [parseLine, IStream.ofText, getline_delim ',' num _ [] h,
      getline_delim ',' t b num hnt]
    rw [readPrerequisites_spec _ b t [] (le_refl _), htake]
    simp [specPrerequisites, splitOn_first num _ h, splitOn_first t b hnt]
  · have htake : rest.takeWhile (fun ch => decide (ch ≠ ',')) = rest := by
      rw [List.takeWhile_eq_self_iff]
      intro x hx
      simp only [decide_eq_true_eq]
      exact fun e => hmem (e ▸ hx)
    have hsplit : rest.splitOn ',' = [rest] := by
      apply List.splitOnP_eq_single
      intro x hx hxe
      simp only [beq_iff_eq] at hxe
      exact hmem (hxe ▸ hx)
    simp only [parseLine, IStream.ofText, getline_delim ',' num _ [] h,
      getline_no_delim ',' rest num hmem]
    cases rest with
    | nil => exact absurd rfl hrest
    | cons c cs =>
      simp only [decide_not] at htake
      simp [readPrerequisites_not_good, htake, specPrerequisites, splitOn_first num _ h, hsplit]

theorem parseLine_ne_outOfFuel (line : Str) : parseLine line ≠ LineOutcome.outOfFuel := by
  intro hout
  by_cases hmem : ',' ∈ line
  · obtain ⟨num, rest, hline, hnum⟩ := split_at_first ',' line hmem
    subst hline
    cases rest with
    | nil =>
      rw [parseLine_trailing_comma num hnum] at hout
      exact LineOutcome.noConfusion hout
    | cons r rs =>
      rw [parseLine_fields num (r :: rs) hnum (List.cons_ne_nil _ _)] at hout
      exact LineOutcome.noConfusion hout
  · rw [parseLine_no_comma line hmem] at hout
    exact LineOutcome.noConfusion hout

theorem loadLine_eq (catalog : CourseCatalog) (line : Str) :
    loadLine catalog line = some (insertAll catalog (parsedCourse line).toList) := by
  have hne := parseLine_ne_outOfFuel line
  simp only [loadLine, parsedCourse]
  cases hp : parseLine line with
  | outOfFuel => exact absurd hp hne
  | skipped => rfl
  | parsed c => rfl

theorem insertAll_append_list (catalog : CourseCatalog) (cs ds : List Course) :
    insertAll catalog (cs ++ ds) = insertAll (insertAll catalog cs) ds := by
  simp [insertAll, List.foldl_append]

theorem loadLoop_not_good (fuel : Nat) (file : IStream) (line : Str) (catalog : CourseCatalog)
    (h : (file.eofbit || file.failbit) = true) :
    loadLoop (fuel + 1) file line catalog = some catalog := by
  simp [loadLoop, getline_not_good file line '\n' h]

theorem loadLoop_spec (fuel : Nat) (buf line : Str) (catalog : CourseCatalog)
    (hfuel : buf.length + 2 ≤ fuel) :
    loadLoop fuel ⟨buf, false, false⟩ line catalog
      = some (insertAll catalog ((buf.splitOn '\n').filterMap parsedCourse)) := by
  induction fuel generalizing buf line catalog with
  | zero => omega
  | succ n ih =>
    by_cases hmem : '\n' ∈ buf
    · obtain ⟨a, b, hab, hna⟩ := split_at_first '\n' buf hmem
      subst hab
      have hlen : b.length + 2 ≤ n := by
        simp only [List.length_append, List.length_cons] at hfuel
        omega
      have hsplit : (a ++ '\n' :: b).splitOn '\n' = a :: b.splitOn '\n' := by
        apply List.splitOnP_first
        · intro x hx hxe
          simp only [beq_iff_eq] at hxe
          exact hna (hxe ▸ hx)
        · simp
      simp only [loadLoop, getline_delim '\n' a b line hna, loadLine_eq]
      rw [hsplit, ih b a _ hlen, ← insertAll_append_list]
      cases hp : parsedCourse a <;> simp [List.filterMap_cons, hp]
    · have hsplit : buf.splitOn '\n' = [buf] := by
        apply List.splitOnP_eq_single
        intro x hx hxe
        simp only [beq_iff_eq] at hxe
        exact hmem (hxe ▸ hx)
      simp only [loadLoop, getline_no_delim '\n' buf line hmem, loadLine_eq]
      rw [hsplit]
      cases n with
      | zero => omega
      | succ m =>
        cases buf with
        | nil =>
          have : parsedCourse [] = none := by decide
          simp [this, insertAll]
        | cons c cs =>
          cases hp : parsedCourse (c :: cs) <;>
            simp [loadLoop_not_good, List.filterMap_cons, hp]

theorem loadDataStructure_spec (catalog : CourseCatalog) (text : Str) :
    loadDataStructure catalog (some text)
      = some (insertAll catalog ((text.splitOn '\n').filterMap parsedCourse)) := by
  simp only [loadDataStructure, IStream.ofText]
  exact loadLoop_spec _ text [] catalog (le_refl _)

/-- Counterexample to C4: after inserting the record ("NOT_FOUND", "", no
prerequisites), the key "NOT_FOUND" is present and the key "CS999" is absent,
yet `Search` returns the same value for both. -/
theorem Search_found_equals_absent :
    (∃ c ∈ [(⟨"NOT_FOUND".toList, [], []⟩ : Course)], c.courseNumber = "NOT_FOUND".toList)
    ∧ (∀ c ∈ [(⟨"NOT_FOUND".toList, [], []⟩ : Course)], c.courseNumber ≠ "CS999".toList)
    ∧ (insertAll CourseCatalog.empty [(⟨"NOT_FOUND".toList, [], []⟩ : Course)]).Search
          "NOT_FOUND".toList
        = (insertAll CourseCatalog.empty [(⟨"NOT_FOUND".toList, [], []⟩ : Course)]).Search
          "CS999".toList := by
  decide

/-- C4 (amended): for a present key `k` and an absent key `k2`, `Search k` equals
the not-found value `Search k2` exactly when the first inserted Course with
number `k` is itself the record ("NOT_FOUND", "", no prerequisites); so the two
differ whenever `k` is not "NOT_FOUND". -/
theorem Search_found_ne_absent (cs : List Course) (k k2 : Str)
    (h : ∃ c ∈ cs, c.courseNumber = k) (h2 : ∀ c ∈ cs, c.courseNumber ≠ k2) :
    ((insertAll CourseCatalog.empty cs).Search k = (insertAll CourseCatalog.empty cs).Search k2
        ↔ cs.find? (hasKey k) = some ⟨"NOT_FOUND".toList, [], []⟩)
      ∧ (k ≠ "NOT_FOUND".toList →
          (insertAll CourseCatalog.empty cs).Search k
            ≠ (insertAll CourseCatalog.empty cs).Search k2) := by
  have hnone : cs.find? (hasKey k2) = none := by
    rw [List.find?_eq_none]
    intro c hc
    simpa [hasKey] using h2 c hc
  have hsome : (cs.find? (hasKey k)).isSome := by
    rw [List.find?_isSome]
    obtain ⟨c, hc, hk⟩ := h
    exact ⟨c, hc, by simp [hasKey, hk]⟩
  obtain ⟨c, hc⟩ := Option.isSome_iff_exists.1 hsome
  have hkc : c.courseNumber = k := by
    have := (List.find?_eq_some.1 hc).1
    simpa [hasKey] using this
  have hiff : (insertAll CourseCatalog.empty cs).Search k
        = (insertAll CourseCatalog.empty cs).Search k2
      ↔ cs.find? (hasKey k) = some ⟨"NOT_FOUND".toList, [], []⟩ := by
    rw [Search_insertAll, Search_insertAll, hnone, hc]
    simp [notFoundCourse]
  refine ⟨hiff, ?_⟩
  intro hk heq
  have := hiff.1 heq
  rw [hc] at this
  have hc2 : c = ⟨"NOT_FOUND".toList, [], []⟩ := Option.some.inj this
  rw [hc2] at hkc
  exact hk hkc.symm

/-- Witness of C4 (amended): ("CS101", "Intro") inserted, "CS101" present and
"CS102" absent. -/
theorem Search_found_ne_absent_witness :
    (∃ c ∈ [(⟨"CS101".toList, "Intro".toList, []⟩ : Course)], c.courseNumber = "CS101".toList)
    ∧ (∀ c ∈ [(⟨"CS101".toList, "Intro".toList, []⟩ : Course)], c.courseNumber ≠ "CS102".toList)
    ∧ (((insertAll CourseCatalog.empty [(⟨"CS101".toList, "Intro".toList, []⟩ : Course)]).Search
            "CS101".toList
          = (insertAll CourseCatalog.empty [(⟨"CS101".toList, "Intro".toList, []⟩ : Course)]).Search
            "CS102".toList
        ↔ [(⟨"CS101".toList, "Intro".toList, []⟩ : Course)].find? (hasKey "CS101".toList)
          = some ⟨"NOT_FOUND".toList, [], []⟩)
      ∧ ("CS101".toList ≠ "NOT_FOUND".toList →
          (insertAll CourseCatalog.empty [(⟨"CS101".toList, "Intro".toList, []⟩ : Course)]).Search
            "CS101".toList
          ≠ (insertAll CourseCatalog.empty [(⟨"CS101".toList, "Intro".toList, []⟩ : Course)]).Search
            "CS102".toList)) :=
  ⟨by decide, by decide, Search_found_ne_absent _ _ _ (by decide) (by decide)⟩

/-- C5: a line without a comma (fewer than two fields, the empty line included)
produces no Course, and the loop body leaves the catalog as it was. -/
theorem parseLine_skips_single_field (line : Str) (h : ',' ∉ line) :
    parseLine line = LineOutcome.skipped
      ∧ ∀ catalog : CourseCatalog, loadLine catalog line = some catalog := by
  have hp := parseLine_no_comma line h
  exact ⟨hp, fun catalog => by simp [loadLine, hp]⟩

/-- Witness of C5: the line "X1". -/
theorem parseLine_skips_single_field_witness :
    ',' ∉ "X1".toList
    ∧ parseLine "X1".toList = LineOutcome.skipped
    ∧ ∀ catalog : CourseCatalog, loadLine catalog "X1".toList = some catalog :=
  ⟨by decide, parseLine_skips_single_field _ (by decide)⟩

/-- Counterexample to C6: the line "X1," contains a comma, so it has the two
fields "X1" and "", yet it produces no Course. -/
theorem parseLine_trailing_comma_skipped :
    ',' ∈ "X1,".toList ∧ "X1,".toList.splitOn ',' = ["X1".toList, []]
      ∧ parseLine "X1,".toList = LineOutcome.skipped := by
  decide

/-- C6 (amended): a line made of a text `num` without comma, a comma, and a
non-empty text `rest` produces exactly one Course, whose course number is `num`
and whose title is `rest` up to its first comma (or its end); the loop body
inserts that Course. -/
theorem parseLine_two_fields (num rest : Str) (h1 : ',' ∉ num) (h2 : rest ≠ []) :
    ∃ prerequisites : List Str,
      parseLine (num ++ ',' :: rest)
        = LineOutcome.parsed ⟨num, rest.takeWhile (fun ch => decide (ch ≠ ',')), prerequisites⟩
      ∧ ∀ catalog : CourseCatalog,
          loadLine catalog (num ++ ',' :: rest)
            = some (catalog.Insert
                ⟨num, rest.takeWhile (fun ch => decide (ch ≠ ',')), prerequisites⟩) := by
  have hp := parseLine_fields num rest h1 h2
  exact ⟨_, hp, fun catalog => by simp only [loadLine, hp]⟩

/-- Witness of C6 (amended): the line "X1,,P1", whose title is empty. -/
theorem parseLine_two_fields_witness :
    ',' ∉ "X1".toList ∧ ",P1".toList ≠ []
    ∧ ∃ prerequisites : List Str,
      parseLine ("X1".toList ++ ',' :: ",P1".toList)
        = LineOutcome.parsed
            ⟨"X1".toList, ",P1".toList.takeWhile (fun ch => decide (ch ≠ ',')), prerequisites⟩
      ∧ ∀ catalog : CourseCatalog,
          loadLine catalog ("X1".toList ++ ',' :: ",P1".toList)
            = some (catalog.Insert
                ⟨"X1".toList, ",P1".toList.takeWhile (fun ch => decide (ch ≠ ',')),
                  prerequisites⟩) :=
  ⟨by decide, by decide, parseLine_two_fields _ _ (by decide) (by decide)⟩

/-- C7: when a line yields a Course, its prerequisites are the comma-separated
fields 3..N of the line in order, each with one leading space removed if it
starts with a space, the fields empty after that removal dropped. -/
theorem parseLine_prerequisites (line : Str) (c : Course)
    (h : parseLine line = LineOutcome.parsed c) :
    c.prerequisites = specPrerequisites line := by
  by_cases hmem : ',' ∈ line
  · obtain ⟨num, rest, hline, hnum⟩ := split_at_first ',' line hmem
    subst hline
    cases rest with
    | nil =>
      rw [parseLine_trailing_comma num hnum] at h
      exact LineOutcome.noConfusion h
    | cons r rs =>
      rw [parseLine_fields num (r :: rs) hnum (List.cons_ne_nil _ _)] at h
      rw [← LineOutcome.parsed.inj h]
  · rw [parseLine_no_comma line hmem] at h
    exact LineOutcome.noConfusion h

/-- Witness of C7: the line "CS300,Algo, CS200,,  M1, ,CS1 " with the Course it
yields. -/
theorem parseLine_prerequisites_witness :
    parseLine "CS300,Algo, CS200,,  M1, ,CS1 ".toList
        = LineOutcome.parsed
            ⟨"CS300".toList, "Algo".toList, ["CS200".toList, " M1".toList, "CS1 ".toList]⟩
    ∧ (⟨"CS300".toList, "Algo".toList,
          ["CS200".toList, " M1".toList, "CS1 ".toList]⟩ : Course).prerequisites
        = specPrerequisites "CS300,Algo, CS200,,  M1, ,CS1 ".toList :=
  ⟨by decide, parseLine_prerequisites _ _ (by decide)⟩

/-- Counterexample to C8: the line "X1,Title,  Pre1, Pre2" does not yield the
prerequisites ["Pre1", "Pre2"]. -/
theorem parseLine_example_not_fully_trimmed :
    parseLine "X1,Title,  Pre1, Pre2".toList
      ≠ LineOutcome.parsed ⟨"X1".toList, "Title".toList, ["Pre1".toList, "Pre2".toList]⟩ := by
  decide

/-- C8 (amended): the line "X1,Title,  Pre1, Pre2" yields the Course "X1",
"Title" with prerequisites [" Pre1", "Pre2"]: one of the two spaces before
"Pre1" is kept. -/
theorem parseLine_example :
    parseLine "X1,Title,  Pre1, Pre2".toList
      = LineOutcome.parsed ⟨"X1".toList, "Title".toList, [" Pre1".toList, "Pre2".toList]⟩ := by
  decide

/-- C9, the code at the failing input: loading the one-line file ",Title" into
an empty catalog inserts a Course whose course number is the empty string. -/
theorem loadDataStructure_empty_courseNumber :
    loadDataStructure CourseCatalog.empty (some ",Title\n".toList)
        = some ⟨NodePtr.node ⟨[], "Title".toList, []⟩ NodePtr.null NodePtr.null⟩
      ∧ (CourseCatalog.inOrder
          (NodePtr.node ⟨[], "Title".toList, []⟩ NodePtr.null NodePtr.null)).map
            (fun c => c.courseNumber) = [[]] := by
  decide

/-- C10: the in-order listing after inserting `cs` into an empty catalog is a
permutation of `cs` (so it has as many records as there were inserts), keeps
the Courses of every course number in their insertion order, and is the stable
sort of `cs` by course number. -/
theorem inOrder_is_stable_sort (cs : List Course) :
    List.Perm (CourseCatalog.inOrder (insertAll CourseCatalog.empty cs).root) cs
      ∧ (CourseCatalog.inOrder (insertAll CourseCatalog.empty cs).root).length = cs.length
      ∧ (∀ k : Str,
          (CourseCatalog.inOrder (insertAll CourseCatalog.empty cs).root).filter (hasKey k)
            = cs.filter (hasKey k))
      ∧ CourseCatalog.inOrder (insertAll CourseCatalog.empty cs).root = cs.mergeSort keyLE :=
  ⟨(inOrder_insertAll cs).2.1, (inOrder_insertAll cs).2.1.length_eq, (inOrder_insertAll cs).2.2,
    inOrder_eq_mergeSort cs⟩

theorem splitOn_newline_first (a b : Str) (h : '\n' ∉ a) :
    (a ++ '\n' :: b).splitOn '\n' = a :: b.splitOn '\n' := by
  apply List.splitOnP_first
  · intro x hx hxe
    simp only [beq_iff_eq] at hxe
    exact h (hxe ▸ hx)
  · simp

theorem parsedCourse_nil : parsedCourse [] = none := by decide

theorem filterMap_fileText (lines : List Str) (terminated : Bool)
    (h : ∀ line ∈ lines, '\n' ∉ line) :
    ((fileText lines terminated).splitOn '\n').filterMap parsedCourse
      = lines.filterMap parsedCourse := by
  induction lines with
  | nil => simp [fileText, parsedCourse_nil]
  | cons l ls ih =>
    have hl : '\n' ∉ l := h l (List.mem_cons_self _ _)
    have hls : ∀ line ∈ ls, '\n' ∉ line := fun x hx => h x (List.mem_cons_of_mem _ hx)
    have hstep : ((l ++ '\n' :: fileText ls terminated).splitOn '\n').filterMap parsedCourse
        = (l :: ls).filterMap parsedCourse := by
      rw [splitOn_newline_first l _ hl, List.filterMap_cons, List.filterMap_cons, ih hls]
    cases ls with
    | nil =>
      cases terminated with
      | true => exact hstep
      | false =>
        have hsingle : l.splitOn '\n' = [l] := by
          apply List.splitOnP_eq_single
          intro x hx hxe
          simp only [beq_iff_eq] at hxe
          exact hl (hxe ▸ hx)
        simp only [fileText]
        rw [hsingle]
    | cons m ms => exact hstep

theorem filterMap_filter_parsed (lines : List Str) :
    (lines.filter (fun line => (parsedCourse line).isSome)).filterMap parsedCourse
      = lines.filterMap parsedCourse := by
  induction lines with
  | nil => rfl
  | cons l ls ih =>
    cases hp : parsedCourse l with
    | none => simp [List.filter_cons, List.filterMap_cons, hp, ih]
    | some c => simp [List.filter_cons, List.filterMap_cons, hp, ih]

theorem inOrder_sublist_insertNode (t : NodePtr) (c : Course) :
    List.Sublist (CourseCatalog.inOrder t) (CourseCatalog.inOrder (CourseCatalog.insertNode t c)) := by
  induction t with
  | null => simp [CourseCatalog.inOrder]
  | node x l r ihl ihr =>
    simp only [CourseCatalog.insertNode]
    split_ifs
    · simp only [CourseCatalog.inOrder]
      exact List.Sublist.append ihl (List.Sublist.refl _)
    · simp only [CourseCatalog.inOrder]
      exact List.Sublist.append (List.Sublist.refl _) (List.Sublist.cons₂ x ihr)

theorem inOrder_sublist_insertAll (catalog : CourseCatalog) (cs : List Course) :
    List.Sublist (CourseCatalog.inOrder catalog.root)
      (CourseCatalog.inOrder (insertAll catalog cs).root) := by
  induction cs generalizing catalog with
  | nil => exact List.Sublist.refl _
  | cons c cs ih =>
    have h1 := inOrder_sublist_insertNode catalog.root c
    have h2 := ih (catalog.Insert c)
    exact h1.trans h2

theorem mem_inOrder_insertNode (t : NodePtr) (c x : Course) :
    x ∈ CourseCatalog.inOrder (CourseCatalog.insertNode t c)
      ↔ x = c ∨ x ∈ CourseCatalog.inOrder t := by
  induction t with
  | null => simp [CourseCatalog.insertNode, CourseCatalog.inOrder]
  | node y l r ihl ihr =>
    simp only [CourseCatalog.insertNode]
    split_ifs
    · simp only [CourseCatalog.inOrder, List.mem_append, List.mem_cons, ihl]
      tauto
    · simp only [CourseCatalog.inOrder, List.mem_append, List.mem_cons, ihr]
      tauto

theorem isSearchTree_insertNode (t : NodePtr) (c : Course) (h : isSearchTree t = true) :
    isSearchTree (CourseCatalog.insertNode t c) = true := by
  induction t with
  | null => simp [CourseCatalog.insertNode, isSearchTree, CourseCatalog.inOrder]
  | node y l r ihl ihr =>
    simp only [isSearchTree, Bool.and_eq_true, List.all_eq_true, decide_eq_true_eq] at h
    obtain ⟨⟨⟨hl, hr⟩, hsl⟩, hsr⟩ := h
    simp only [CourseCatalog.insertNode]
    split_ifs with hlt
    · simp only [isSearchTree, Bool.and_eq_true, List.all_eq_true, decide_eq_true_eq]
      refine ⟨⟨⟨?_, hr⟩, ihl hsl⟩, hsr⟩
      intro x hx
      rcases (mem_inOrder_insertNode l c x).1 hx with rfl | hx
      · exact (strCompare_lt_iff_gt _ _).1 hlt
      · exact hl x hx
    · simp only [isSearchTree, Bool.and_eq_true, List.all_eq_true, decide_eq_true_eq]
      refine ⟨⟨⟨hl, ?_⟩, hsl⟩, ihr hsr⟩
      intro x hx
      rcases (mem_inOrder_insertNode r c x).1 hx with rfl | hx
      · exact strCompare_ge_of_not_lt _ _ hlt
      · exact hr x hx

theorem isSearchTree_insertAll (catalog : CourseCatalog) (cs : List Course)
    (h : isSearchTree catalog.root = true) : isSearchTree (insertAll catalog cs).root = true := by
  induction cs generalizing catalog with
  | nil => exact h
  | cons c cs ih => exact ih (catalog.Insert c) (isSearchTree_insertNode catalog.root c h)

theorem insertNode_rightSpine (cs : List Course) (c : Course)
    (h : ∀ x ∈ cs, strCompare x.courseNumber c.courseNumber ≤ 0) :
    CourseCatalog.insertNode (rightSpine cs) c = rightSpine (cs ++ [c]) := by
  induction cs with
  | nil => rfl
  | cons x xs ih =>
    have hx : ¬ strCompare c.courseNumber x.courseNumber < 0 :=
      strCompare_not_lt_of_ge _ _ (h x (List.mem_cons_self _ _))
    simp only [rightSpine, CourseCatalog.insertNode, hx, if_false, List.cons_append]
    rw [ih (fun y hy => h y (List.mem_cons_of_mem _ hy))]
    rfl

theorem insertAll_sorted_rightSpine (cs : List Course)
    (h : List.Pairwise (fun a b => strCompare a.courseNumber b.courseNumber ≤ 0) cs) :
    (insertAll CourseCatalog.empty cs).root = rightSpine cs := by
  induction cs using List.reverseRecOn with
  | nil => rfl
  | append_singleton cs c ih =>
    rw [List.pairwise_append] at h
    obtain ⟨hcs, _, hlast⟩ := h
    rw [insertAll_append]
    simp only [CourseCatalog.Insert]
    rw [ih hcs]
    exact insertNode_rightSpine cs c (fun x hx => hlast x hx c (List.mem_singleton_self c))

theorem hasNoLeftChild_rightSpine (cs : List Course) : hasNoLeftChild (rightSpine cs) = true := by
  induction cs with
  | nil => rfl
  | cons c cs ih => simpa [rightSpine, hasNoLeftChild] using ih

theorem height_rightSpine (cs : List Course) : height (rightSpine cs) = cs.length := by
  induction cs with
  | nil => rfl
  | cons c cs ih =>
    simp only [rightSpine, height, ih, List.length_cons]
    omega

theorem courseLine_ne_message (c : Course) :
    courseLine c ≠ "The course catalog is empty.\n".toList := by
  intro h
  have hmem : ',' ∈ courseLine c := by simp [courseLine]
  rw [h] at hmem
  revert hmem
  decide

/-- C11: for every initial catalog and every list of input lines of a file that
opens, `loadDataStructure` returns the catalog obtained by `Insert`, in line
order, on exactly the Courses of the lines that parse; the load is not aborted
by the other lines, removing them from the file gives the same catalog, and
the records listed before the load are still listed after it. -/
theorem loadDataStructure_inserts_parsed (catalog : CourseCatalog) (lines : List Str)
    (terminated : Bool) (h : ∀ line ∈ lines, '\n' ∉ line) :
    loadDataStructure catalog (some (fileText lines terminated))
        = some (insertAll catalog (lines.filterMap parsedCourse))
      ∧ loadDataStructure catalog
          (some (fileText (lines.filter (fun line => (parsedCourse line).isSome)) terminated))
        = loadDataStructure catalog (some (fileText lines terminated))
      ∧ List.Sublist (CourseCatalog.inOrder catalog.root)
          (CourseCatalog.inOrder (insertAll catalog (lines.filterMap parsedCourse)).root) := by
  have hfilter : ∀ line ∈ lines.filter (fun line => (parsedCourse line).isSome), '\n' ∉ line :=
    fun line hline => h line (List.mem_filter.1 hline).1
  refine ⟨?_, ?_, inOrder_sublist_insertAll catalog _⟩
  · rw [loadDataStructure_spec, filterMap_fileText lines terminated h]
  · rw [loadDataStructure_spec, loadDataStructure_spec, filterMap_fileText lines terminated h,
      filterMap_fileText _ terminated hfilter, filterMap_filter_parsed]

/-- Witness of C11: a catalog holding "B1" and a file of four lines, two of
which ("junk" and the empty line) do not parse. -/
theorem loadDataStructure_inserts_parsed_witness :
    (∀ line ∈ ["C3,Three,B1".toList, "junk".toList, [], "A2,Two".toList], '\n' ∉ line)
    ∧ loadDataStructure (CourseCatalog.empty.Insert ⟨"B1".toList, "One".toList, []⟩)
          (some (fileText ["C3,Three,B1".toList, "junk".toList, [], "A2,Two".toList] true))
        = some (insertAll (CourseCatalog.empty.Insert ⟨"B1".toList, "One".toList, []⟩)
            (["C3,Three,B1".toList, "junk".toList, [], "A2,Two".toList].filterMap parsedCourse))
      ∧ loadDataStructure (CourseCatalog.empty.Insert ⟨"B1".toList, "One".toList, []⟩)
          (some (fileText (["C3,Three,B1".toList, "junk".toList, [], "A2,Two".toList].filter
            (fun line => (parsedCourse line).isSome)) true))
        = loadDataStructure (CourseCatalog.empty.Insert ⟨"B1".toList, "One".toList, []⟩)
          (some (fileText ["C3,Three,B1".toList, "junk".toList, [], "A2,Two".toList] true))
      ∧ List.Sublist
          (CourseCatalog.inOrder (CourseCatalog.empty.Insert ⟨"B1".toList, "One".toList, []⟩).root)
          (CourseCatalog.inOrder
            (insertAll (CourseCatalog.empty.Insert ⟨"B1".toList, "One".toList, []⟩)
              (["C3,Three,B1".toList, "junk".toList, [], "A2,Two".toList].filterMap
                parsedCourse)).root) :=
  ⟨by decide, loadDataStructure_inserts_parsed _ _ _ (by decide)⟩

/-- C12: loading the text "CS101,Intro to CS\nCS102,Data Structures,CS101\n"
into an empty catalog and listing it gives exactly two records, ("CS101",
"Intro to CS", no prerequisites) and then ("CS102", "Data Structures",
["CS101"]); `PrintAllCourses` writes their two lines in that order. -/
theorem load_then_list_example :
    loadDataStructure CourseCatalog.empty
        (some "CS101,Intro to CS\nCS102,Data Structures,CS101\n".toList)
      = some ⟨NodePtr.node ⟨"CS101".toList, "Intro to CS".toList, []⟩ NodePtr.null
          (NodePtr.node ⟨"CS102".toList, "Data Structures".toList, ["CS101".toList]⟩
            NodePtr.null NodePtr.null)⟩
    ∧ CourseCatalog.inOrder
        (NodePtr.node ⟨"CS101".toList, "Intro to CS".toList, []⟩ NodePtr.null
          (NodePtr.node ⟨"CS102".toList, "Data Structures".toList, ["CS101".toList]⟩
            NodePtr.null NodePtr.null))
      = [⟨"CS101".toList, "Intro to CS".toList, []⟩,
          ⟨"CS102".toList, "Data Structures".toList, ["CS101".toList]⟩]
    ∧ CourseCatalog.PrintAllCourses
        ⟨NodePtr.node ⟨"CS101".toList, "Intro to CS".toList, []⟩ NodePtr.null
          (NodePtr.node ⟨"CS102".toList, "Data Structures".toList, ["CS101".toList]⟩
            NodePtr.null NodePtr.null)⟩
      = ["CS101, Intro to CS\n".toList, "CS102, Data Structures\n".toList] := by
  decide

/-- C13: on the empty catalog (root null) the listing has no record: `inOrder`
is not reached, and the only text `PrintAllCourses` writes is the message "The
course catalog is empty.", which is the line of no Course. -/
theorem PrintAllCourses_empty_no_entries :
    CourseCatalog.empty.root = NodePtr.null
    ∧ CourseCatalog.inOrder CourseCatalog.empty.root = []
    ∧ CourseCatalog.PrintAllCourses CourseCatalog.empty
        = ["The course catalog is empty.\n".toList]
    ∧ ∀ c : Course, courseLine c ∉ CourseCatalog.PrintAllCourses CourseCatalog.empty := by
  refine ⟨rfl, rfl, rfl, ?_⟩
  intro c hc
  have hmsg : CourseCatalog.PrintAllCourses CourseCatalog.empty
      = ["The course catalog is empty.\n".toList] := rfl
  rw [hmsg, List.mem_singleton] at hc
  exact courseLine_ne_message c hc

/-- C14: when the file cannot be opened, `loadDataStructure` returns with the
catalog exactly as it was. -/
theorem loadDataStructure_unopened (catalog : CourseCatalog) :
    loadDataStructure catalog none = some catalog :=
  rfl

/-- C15: `insertNode` preserves the search-tree invariant (every key strictly
greater than the keys of its left subtree and at most the keys of its right
subtree), so it holds after any sequence of `Insert` calls on a tree that has
it, in particular on every catalog built from the empty one. -/
theorem Insert_preserves_searchTree (t : NodePtr) (c : Course) (cs : List Course)
    (h : isSearchTree t = true) :
    isSearchTree (CourseCatalog.insertNode t c) = true
      ∧ isSearchTree (insertAll ⟨t⟩ cs).root = true
      ∧ isSearchTree (insertAll CourseCatalog.empty cs).root = true :=
  ⟨isSearchTree_insertNode t c h, isSearchTree_insertAll ⟨t⟩ cs h,
    isSearchTree_insertAll CourseCatalog.empty cs rfl⟩

/-- Witness of C15: the tree with "B" at the root and "A" to its left, the
record "B" inserted again, and the sequence "C", "A". -/
theorem Insert_preserves_searchTree_witness :
    isSearchTree (NodePtr.node ⟨"B".toList, [], []⟩
        (NodePtr.node ⟨"A".toList, [], []⟩ NodePtr.null NodePtr.null) NodePtr.null) = true
    ∧ isSearchTree (CourseCatalog.insertNode (NodePtr.node ⟨"B".toList, [], []⟩
        (NodePtr.node ⟨"A".toList, [], []⟩ NodePtr.null NodePtr.null) NodePtr.null)
        ⟨"B".toList, "again".toList, []⟩) = true
    ∧ isSearchTree (insertAll ⟨NodePtr.node ⟨"B".toList, [], []⟩
        (NodePtr.node ⟨"A".toList, [], []⟩ NodePtr.null NodePtr.null) NodePtr.null⟩
        [⟨"C".toList, [], []⟩, ⟨"A".toList, [], []⟩]).root = true
    ∧ isSearchTree (insertAll CourseCatalog.empty
        [⟨"C".toList, [], []⟩, ⟨"A".toList, [], []⟩]).root = true :=
  ⟨by decide, Insert_preserves_searchTree _ _ _ (by decide)⟩

/-- C16: for every tree `t` (with or without the search-tree invariant), Course
`c` and key `k`: when the lookup of `k` in `t` finds a Course, or `k` is not the
course number of `c`, the lookup after `Insert c` gives the same result as
before; otherwise (`k` is the number of `c` and was not found) it gives `c`. -/
theorem Insert_keeps_lookups (t : NodePtr) (c : Course) (k : Str) :
    CourseCatalog.searchNode (CourseCatalog.insertNode t c) k
        = (if (CourseCatalog.searchNode t k).isSome ∨ k ≠ c.courseNumber
            then CourseCatalog.searchNode t k else some c)
      ∧ (CourseCatalog.Insert ⟨t⟩ c).Search k
        = (if (CourseCatalog.searchNode t k).isSome ∨ k ≠ c.courseNumber
            then CourseCatalog.Search ⟨t⟩ k else c) := by
  have hs := searchNode_insertNode t c k
  have hnode : CourseCatalog.searchNode (CourseCatalog.insertNode t c) k
      = (if (CourseCatalog.searchNode t k).isSome ∨ k ≠ c.courseNumber
          then CourseCatalog.searchNode t k else some c) := by
    rw [hs]
    cases hfound : CourseCatalog.searchNode t k with
    | some x => simp
    | none =>
      by_cases hk : c.courseNumber = k
      · simp [hk]
      · have hk2 : k ≠ c.courseNumber := fun e => hk e.symm
        simp [hk, hk2]
  refine ⟨hnode, ?_⟩
  simp only [CourseCatalog.Search, CourseCatalog.Insert, hnode]
  split_ifs <;> rfl

/-- C17: when the Courses are inserted into an empty catalog in non-decreasing
order of course number, every node is the right child of the one inserted
before it: no node has a left child and the height is the number of Courses. -/
theorem sorted_inserts_degenerate (cs : List Course)
    (h : List.Pairwise (fun a b => strCompare a.courseNumber b.courseNumber ≤ 0) cs) :
    (insertAll CourseCatalog.empty cs).root = rightSpine cs
      ∧ hasNoLeftChild (insertAll CourseCatalog.empty cs).root = true
      ∧ height (insertAll CourseCatalog.empty cs).root = cs.length := by
  rw [insertAll_sorted_rightSpine cs h]
  exact ⟨rfl, hasNoLeftChild_rightSpine cs, height_rightSpine cs⟩

/-- Witness of C17: "A1", "A1" again, "B2" inserted in this order. -/
theorem sorted_inserts_degenerate_witness :
    List.Pairwise (fun a b => strCompare a.courseNumber b.courseNumber ≤ 0)
        [(⟨"A1".toList, [], []⟩ : Course), ⟨"A1".toList, "dup".toList, []⟩, ⟨"B2".toList, [], []⟩]
    ∧ (insertAll CourseCatalog.empty
        [(⟨"A1".toList, [], []⟩ : Course), ⟨"A1".toList, "dup".toList, []⟩,
          ⟨"B2".toList, [], []⟩]).root
        = rightSpine [(⟨"A1".toList, [], []⟩ : Course), ⟨"A1".toList, "dup".toList, []⟩,
          ⟨"B2".toList, [], []⟩]
      ∧ hasNoLeftChild (insertAll CourseCatalog.empty
        [(⟨"A1".toList, [], []⟩ : Course), ⟨"A1".toList, "dup".toList, []⟩,
          ⟨"B2".toList, [], []⟩]).root = true
      ∧ height (insertAll CourseCatalog.empty
        [(⟨"A1".toList, [], []⟩ : Course), ⟨"A1".toList, "dup".toList, []⟩,
          ⟨"B2".toList, [], []⟩]).root
        = [(⟨"A1".toList, [], []⟩ : Course), ⟨"A1".toList, "dup".toList, []⟩,
          ⟨"B2".toList, [], []⟩].length :=
  ⟨by decide, sorted_inserts_degenerate _ (by decide)⟩

end ProjectTwo
